import Mathlib

/-!
Verification model of `src/exercises/exercise-15/database.ts`: a line-oriented
JSON record store (`Database<T>`) with live/tombstone rows, a recursive query
matcher (`$text`, `$and`, `$or`, field conditions `$in`/`$eq`/`$lt`/`$gt`),
multi-key sorting and field projection.

Modelling conventions:
- JavaScript runtime values parsed from the log are modelled by the inductive
  `Json`; JS numbers are modelled as `Int` (every numeric literal in the claims
  and in the repository is integral).
- Object identity of parsed record objects (JS reference equality, used by
  `Set#has` in `intersect2`, `union` and `delete`) is modelled by pairing each
  record with the index of the row it was parsed from: `IRec := Nat × Json`.
  Distinct rows always parse to distinct references, and all sub-queries of one
  `find`/`delete` call filter the same array of references.
- String manipulation (`trim`, `split`, `toLowerCase`) is re-implemented on
  `List Char` because the claims are settled by kernel evaluation.
-/

/-- Runtime JSON value as produced by `JSON.parse`. JS numbers are modelled as
`Int`: the model's JSON grammar covers integer numerals (see `parseNumber`). -/
inductive Json where
  | null
  | bool (b : Bool)
  | num (n : Int)
  | str (s : String)
  | arr (elems : List Json)
  | obj (fields : List (String × Json))
deriving Repr

mutual

/-- Structural equality on `Json` (boolean-valued; `DecidableEq` is derived
from it below). -/
def Json.beq : Json → Json → Bool
  | .null, .null => true
  | .bool a, .bool b => a == b
  | .num a, .num b => a == b
  | .str a, .str b => a == b
  | .arr xs, .arr ys => Json.beqList xs ys
  | .obj fs, .obj gs => Json.beqObj fs gs
  | _, _ => false

/-- Pointwise `Json.beq` on lists. -/
def Json.beqList : List Json → List Json → Bool
  | [], [] => true
  | x :: xs, y :: ys => Json.beq x y && Json.beqList xs ys
  | _, _ => false

/-- Pointwise `Json.beq` on object field lists. -/
def Json.beqObj : List (String × Json) → List (String × Json) → Bool
  | [], [] => true
  | (k, v) :: fs, (k', v') :: gs => k == k' && Json.beq v v' && Json.beqObj fs gs
  | _, _ => false

end

theorem Json.beqList_eq_of_ih {xs ys : List Json}
    (ih : ∀ x ∈ xs, ∀ y, Json.beq x y = true → x = y) :
    Json.beqList xs ys = true → xs = ys := by
  induction xs generalizing ys with
  | nil => cases ys <;> simp [Json.beqList]
  | cons x xs ihl =>
    cases ys with
    | nil => simp [Json.beqList]
    | cons y ys =>
      intro h
      simp only [Json.beqList, Bool.and_eq_true] at h
      have hx := ih x (by simp) y h.1
      have hxs := ihl (fun a ha b => ih a (by simp [ha]) b) h.2
      rw [hx, hxs]

theorem Json.beqObj_eq_of_ih {fs gs : List (String × Json)}
    (ih : ∀ f ∈ fs, ∀ y, Json.beq f.2 y = true → f.2 = y) :
    Json.beqObj fs gs = true → fs = gs := by
  induction fs generalizing gs with
  | nil => cases gs <;> simp [Json.beqObj]
  | cons f fs ihl =>
    cases gs with
    | nil => cases f; simp [Json.beqObj]
    | cons g gs =>
      cases f with
      | mk k v =>
        cases g with
        | mk k' v' =>
          intro h
          simp only [Json.beqObj, Bool.and_eq_true, beq_iff_eq] at h
          have hv := ih (k, v) (by simp) v' h.1.2
          have hfs := ihl (fun a ha b => ih a (by simp [ha]) b) h.2
          simp only at hv
          rw [h.1.1, hv, hfs]

theorem Json.eq_of_beq_aux : ∀ (n : Nat) (a b : Json), sizeOf a ≤ n →
    Json.beq a b = true → a = b := by
  intro n
  induction n with
  | zero => intro a b h; cases a <;> simp at h
  | succ n ih =>
    intro a b hs hb
    cases a with
    | null => cases b <;> simp_all [Json.beq]
    | bool x => cases b <;> simp_all [Json.beq]
    | num x => cases b <;> simp_all [Json.beq]
    | str x => cases b <;> simp_all [Json.beq]
    | arr xs =>
      cases b <;> simp_all [Json.beq]
      rename_i ys
      refine Json.beqList_eq_of_ih (fun x hx y hxy => ?_) hb
      have hlt : sizeOf x < sizeOf xs := List.sizeOf_lt_of_mem hx
      have hs' : 1 + sizeOf xs ≤ n + 1 := by
        simpa [Json.arr.sizeOf_spec] using hs
      exact ih x y (by omega) hxy
    | obj fs =>
      cases b <;> simp_all [Json.beq]
      rename_i gs
      refine Json.beqObj_eq_of_ih (fun f hf y hfy => ?_) hb
      have h1 : sizeOf f < sizeOf fs := List.sizeOf_lt_of_mem hf
      have h2 : sizeOf f.2 < sizeOf f := by
        cases f with
        | mk k v => simp only [Prod.mk.sizeOf_spec]; omega
      have hs' : 1 + sizeOf fs ≤ n + 1 := by
        simpa [Json.obj.sizeOf_spec] using hs
      exact ih f.2 y (by omega) hfy

theorem Json.eq_of_beq {a b : Json} (h : Json.beq a b = true) : a = b :=
  Json.eq_of_beq_aux (sizeOf a) a b (Nat.le_refl _) h

theorem Json.beqList_refl_of_ih {xs : List Json}
    (ih : ∀ x ∈ xs, Json.beq x x = true) : Json.beqList xs xs = true := by
  induction xs with
  | nil => rfl
  | cons x xs ihl =>
    simp only [Json.beqList, Bool.and_eq_true]
    exact ⟨ih x (by simp), ihl fun a ha => ih a (by simp [ha])⟩

theorem Json.beqObj_refl_of_ih {fs : List (String × Json)}
    (ih : ∀ f ∈ fs, Json.beq f.2 f.2 = true) : Json.beqObj fs fs = true := by
  induction fs with
  | nil => rfl
  | cons f fs ihl =>
    cases f with
    | mk k v =>
      simp only [Json.beqObj, Bool.and_eq_true, beq_self_eq_true, true_and]
      exact ⟨ih (k, v) (by simp), ihl fun a ha => ih a (by simp [ha])⟩

theorem Json.beq_refl_aux : ∀ (n : Nat) (a : Json), sizeOf a ≤ n →
    Json.beq a a = true := by
  intro n
  induction n with
  | zero => intro a h; cases a <;> simp at h
  | succ n ih =>
    intro a hs
    cases a with
    | null => rfl
    | bool x => simp [Json.beq]
    | num x => simp [Json.beq]
    | str x => simp [Json.beq]
    | arr xs =>
      simp only [Json.beq]
      refine Json.beqList_refl_of_ih fun x hx => ?_
      have hlt : sizeOf x < sizeOf xs := List.sizeOf_lt_of_mem hx
      have hs' : 1 + sizeOf xs ≤ n + 1 := by
        simpa [Json.arr.sizeOf_spec] using hs
      exact ih x (by omega)
    | obj fs =>
      simp only [Json.beq]
      refine Json.beqObj_refl_of_ih fun f hf => ?_
      have h1 : sizeOf f < sizeOf fs := List.sizeOf_lt_of_mem hf
      have h2 : sizeOf f.2 < sizeOf f := by
        cases f with
        | mk k v => simp only [Prod.mk.sizeOf_spec]; omega
      have hs' : 1 + sizeOf fs ≤ n + 1 := by
        simpa [Json.obj.sizeOf_spec] using hs
      exact ih f.2 (by omega)

theorem Json.beq_refl (a : Json) : Json.beq a a = true :=
  Json.beq_refl_aux (sizeOf a) a (Nat.le_refl _)

instance : BEq Json := ⟨Json.beq⟩

instance : LawfulBEq Json where
  eq_of_beq := Json.eq_of_beq
  rfl := Json.beq_refl _

instance : DecidableEq Json := fun a b =>
  decidable_of_iff (Json.beq a b = true) ⟨Json.eq_of_beq, fun h => h ▸ Json.beq_refl a⟩

/-- Whitespace class of the JavaScript regular expression `\s` (restricted to
the ASCII whitespace characters; the repository's data is ASCII). -/
def jsWs (c : Char) : Bool :=
  c == ' ' || c == '\t' || c == '\n' || c == '\r' || c == '\x0b' || c == '\x0c'

/-- Model of `String.prototype.trim`: drop whitespace from both ends. -/
def jsTrim (cs : List Char) : List Char :=
  ((cs.dropWhile jsWs).reverse.dropWhile jsWs).reverse

/-- Model of `contents.split("\n")`: split at every newline character; the
empty string splits to `[""]` and empty pieces are kept. -/
def splitNl : List Char → List (List Char)
  | [] => [[]]
  | c :: cs =>
    if c = '\n' then [] :: splitNl cs
    else
      match splitNl cs with
      | [] => [[c]]
      | p :: ps => (c :: p) :: ps

/-- Prepend a character to the first piece of a split result. -/
def consHead (c : Char) : List (List Char) → List (List Char)
  | [] => [[c]]
  | p :: ps => (c :: p) :: ps

mutual

/-- Model of `value.split(/\s+/)`: pieces between maximal whitespace runs.
Interior pieces are nonempty; a leading or trailing run contributes an empty
piece, and the empty string splits to `[""]`, as in JavaScript. -/
def splitWsRuns : List Char → List (List Char)
  | [] => [[]]
  | c :: cs => if jsWs c then [] :: splitWsAfterRun cs else consHead c (splitWsRuns cs)

/-- Continuation of `splitWsRuns` inside a whitespace run: skip the rest of
the run, then the next piece starts (empty when the input ends in the run). -/
def splitWsAfterRun : List Char → List (List Char)
  | [] => [[]]
  | c :: cs => if jsWs c then splitWsAfterRun cs else consHead c (splitWsRuns cs)

end

/-- Model of `String.prototype.toLowerCase` (ASCII case mapping). -/
def jsToLower (s : String) : String := String.mk (s.data.map Char.toLower)

/-- Model of `value.split(/\s+/)` on a `String`. -/
def jsSplitWs (s : String) : List String := (splitWsRuns s.data).map String.mk

/-- JSON whitespace accepted between tokens by `JSON.parse`. -/
def jsonWs (c : Char) : Bool := c == ' ' || c == '\t' || c == '\n' || c == '\r'

/-- Skip JSON inter-token whitespace. -/
def skipJsonWs (cs : List Char) : List Char := cs.dropWhile jsonWs

/-- Numeric value of a hexadecimal digit, for `\uXXXX` string escapes. -/
def hexVal (c : Char) : Option Nat :=
  if '0' ≤ c ∧ c ≤ '9' then some (c.toNat - 48)
  else if 'a' ≤ c ∧ c ≤ 'f' then some (c.toNat - 87)
  else if 'A' ≤ c ∧ c ≤ 'F' then some (c.toNat - 55)
  else none

/-- Parse the body of a JSON string literal after the opening quote, handling
the escape sequences of the JSON grammar; raw control characters are
rejected, as in `JSON.parse`. -/
def parseStringBody : Nat → List Char → Option (List Char × List Char)
  | 0, _ => none
  | _ + 1, [] => none
  | fuel + 1, c :: rest =>
    if c = '"' then some ([], rest)
    else if c = '\\' then
      match rest with
      | [] => none
      | 'u' :: h1 :: h2 :: h3 :: h4 :: rest' => do
        let a ← hexVal h1
        let b ← hexVal h2
        let c' ← hexVal h3
        let d ← hexVal h4
        let (s, r) ← parseStringBody fuel rest'
        pure (Char.ofNat (4096 * a + 256 * b + 16 * c' + d) :: s, r)
      | e :: rest' => do
        let ec ← match e with
          | '"' => some '"'
          | '\\' => some '\\'
          | '/' => some '/'
          | 'b' => some '\x08'
          | 'f' => some '\x0c'
          | 'n' => some '\n'
          | 'r' => some '\r'
          | 't' => some '\t'
          | _ => none
        let (s, r) ← parseStringBody fuel rest'
        pure (ec :: s, r)
    else if c.toNat < 32 then none
    else do
      let (s, r) ← parseStringBody fuel rest
      pure (c :: s, r)

/-- Parse a nonempty run of decimal digits into a `Nat`, rejecting a leading
zero followed by further digits, as the JSON number grammar does. -/
def parseDigits (cs : List Char) : Option (Nat × List Char) :=
  match cs.takeWhile Char.isDigit with
  | [] => none
  | d :: ds =>
    if d = '0' ∧ ds ≠ [] then none
    else some ((d :: ds).foldl (fun n c => 10 * n + (c.toNat - 48)) 0,
      cs.dropWhile Char.isDigit)

/-- Parse a JSON integer numeral (optional minus sign followed by digits).
Fractional and exponent numerals are outside this model: every number in the
repository's data and in the claims is integral. -/
def parseNumber (cs : List Char) : Option (Int × List Char) :=
  match cs with
  | '-' :: rest => (parseDigits rest).map fun p => (-(p.1 : Int), p.2)
  | _ => (parseDigits cs).map fun p => ((p.1 : Int), p.2)

mutual

/-- Recursive-descent JSON value parser, the model of `JSON.parse`'s grammar
(with numbers restricted to integer numerals). -/
def parseValue : Nat → List Char → Option (Json × List Char)
  | 0, _ => none
  | fuel + 1, cs =>
    match skipJsonWs cs with
    | 't' :: 'r' :: 'u' :: 'e' :: r => some (.bool true, r)
    | 'f' :: 'a' :: 'l' :: 's' :: 'e' :: r => some (.bool false, r)
    | 'n' :: 'u' :: 'l' :: 'l' :: r => some (.null, r)
    | '"' :: r => (parseStringBody (r.length + 1) r).map fun p =>
        (.str (String.mk p.1), p.2)
    | '[' :: r => parseArrayRest fuel r
    | '{' :: r => parseObjectRest fuel r
    | cs' => (parseNumber cs').map fun p => (.num p.1, p.2)

/-- Parse the remainder of a JSON array after `[`. -/
def parseArrayRest : Nat → List Char → Option (Json × List Char)
  | 0, _ => none
  | fuel + 1, cs =>
    match skipJsonWs cs with
    | ']' :: r => some (.arr [], r)
    | _ => do
      let (x, r1) ← parseValue fuel cs
      let (xs, r2) ← parseArrayTail fuel r1
      pure (.arr (x :: xs), r2)

/-- Parse `, value`* `]`, the tail of a nonempty JSON array. -/
def parseArrayTail : Nat → List Char → Option (List Json × List Char)
  | 0, _ => none
  | fuel + 1, cs =>
    match skipJsonWs cs with
    | ']' :: r => some ([], r)
    | ',' :: r => do
      let (x, r1) ← parseValue fuel r
      let (xs, r2) ← parseArrayTail fuel r1
      pure (x :: xs, r2)
    | _ => none

/-- Parse the remainder of a JSON object after `{`. -/
def parseObjectRest : Nat → List Char → Option (Json × List Char)
  | 0, _ => none
  | fuel + 1, cs =>
    match skipJsonWs cs with
    | '}' :: r => some (.obj [], r)
    | _ => do
      let (f, r1) ← parseMember fuel cs
      let (fs, r2) ← parseObjectTail fuel r1
      pure (.obj (f :: fs), r2)

/-- Parse `, member`* `}`, the tail of a nonempty JSON object. -/
def parseObjectTail : Nat → List Char → Option (List (String × Json) × List Char)
  | 0, _ => none
  | fuel + 1, cs =>
    match skipJsonWs cs with
    | '}' :: r => some ([], r)
    | ',' :: r => do
      let (f, r1) ← parseMember fuel r
      let (fs, r2) ← parseObjectTail fuel r1
      pure (f :: fs, r2)
    | _ => none

/-- Parse one `"key": value` member of a JSON object. -/
def parseMember : Nat → List Char → Option ((String × Json) × List Char)
  | 0, _ => none
  | fuel + 1, cs =>
    match skipJsonWs cs with
    | '"' :: r => do
      let (k, r1) ← parseStringBody (r.length + 1) r
      match skipJsonWs r1 with
      | ':' :: r2 => do
        let (v, r3) ← parseValue fuel r2
        pure ((String.mk k, v), r3)
      | _ => none
    | _ => none

end

/-- Model of `JSON.parse`: parse one JSON value and require that only
whitespace follows; `none` models a thrown `SyntaxError`. -/
def parseJson (cs : List Char) : Option Json := do
  let (v, rest) ← parseValue (4 * cs.length + 16) cs
  if (skipJsonWs rest).isEmpty then some v else none

/-- Hexadecimal digit character for `stringify`'s control-character escapes. -/
def hexDigit (n : Nat) : Char := if n < 10 then Char.ofNat (48 + n) else Char.ofNat (87 + n)

/-- Escape one character of a JSON string as `JSON.stringify` does. -/
def escapeChar (c : Char) : List Char :=
  if c = '"' then ['\\', '"']
  else if c = '\\' then ['\\', '\\']
  else if c = '\x08' then ['\\', 'b']
  else if c = '\x0c' then ['\\', 'f']
  else if c = '\n' then ['\\', 'n']
  else if c = '\r' then ['\\', 'r']
  else if c = '\t' then ['\\', 't']
  else if c.toNat < 32 then
    ['\\', 'u', '0', '0', hexDigit (c.toNat / 16), hexDigit (c.toNat % 16)]
  else [c]

/-- Decimal digits of a natural number (most significant first). -/
def natToChars : Nat → Nat → List Char
  | 0, _ => []
  | fuel + 1, n =>
    if n < 10 then [Char.ofNat (48 + n)]
    else natToChars fuel (n / 10) ++ [Char.ofNat (48 + n % 10)]

/-- Decimal numeral of an integer; integral JS numbers print without a
decimal point. -/
def intToChars (n : Int) : List Char :=
  if n < 0 then '-' :: natToChars (n.natAbs + 1) n.natAbs
  else natToChars (n.natAbs + 1) n.natAbs

mutual

/-- Model of `JSON.stringify` on runtime values. -/
def Json.stringify : Json → List Char
  | .null => "null".data
  | .bool b => if b then "true".data else "false".data
  | .num n => intToChars n
  | .str s => '"' :: (s.data.map escapeChar).flatten ++ ['"']
  | .arr xs => '[' :: Json.stringifyList xs ++ [']']
  | .obj fs => '{' :: Json.stringifyObj fs ++ ['}']

/-- Comma-separated serialization of array elements. -/
def Json.stringifyList : List Json → List Char
  | [] => []
  | [x] => Json.stringify x
  | x :: xs => Json.stringify x ++ ',' :: Json.stringifyList xs

/-- Comma-separated serialization of object members. -/
def Json.stringifyObj : List (String × Json) → List Char
  | [] => []
  | [(k, v)] => '"' :: (k.data.map escapeChar).flatten ++ '"' :: ':' :: Json.stringify v
  | (k, v) :: fs =>
    '"' :: (k.data.map escapeChar).flatten ++ '"' :: ':' :: Json.stringify v
      ++ ',' :: Json.stringifyObj fs

end

/-- one stored line of the log: `interface Row<T> { exists: boolean; data: T }`.
The `exists` flag is the live/tombstone marker decoded from the line's first
character. -/
structure Row where
  «exists» : Bool
  data : Json
deriving Repr, DecidableEq

/-- The store: `class Database<T>`, holding the file path and the configured
full-text-search field names. The file contents and loaded rows are passed
explicitly to each operation (the TypeScript methods read and write the file
at `this.filename`). -/
structure Database where
  filename : String
  fullTextSearchFieldNames : List String

instance {ε α : Type} [DecidableEq ε] [DecidableEq α] : DecidableEq (Except ε α) := fun a b =>
  match a, b with
  | .ok x, .ok y =>
    if h : x = y then .isTrue (by rw [h]) else .isFalse (by intro hc; cases hc; exact h rfl)
  | .error x, .error y =>
    if h : x = y then .isTrue (by rw [h]) else .isFalse (by intro hc; cases hc; exact h rfl)
  | .ok _, .error _ => .isFalse (by intro hc; cases hc)
  | .error _, .ok _ => .isFalse (by intro hc; cases hc)

/-- Model of `Database._load`: trim the file contents, split on newlines, and
decode each line as `{ exists: r.startsWith("E"), data: JSON.parse(r.slice(1)) }`.
A thrown `SyntaxError` from `JSON.parse` is modelled as `Except.error` carrying
the offending line; note that the first character is dropped unexamined, so any
first character other than `E` (valid marker or not) yields a dead row. -/
def Database._load (contents : String) : Except String (List Row) :=
  (splitNl (jsTrim contents.data)).mapM fun r =>
    match parseJson (r.drop 1) with
    | some data => .ok ⟨r.head? == some 'E', data⟩
    | none => .error (String.mk r)

/-- Operator object of one field key of a `SimpleQuery`: exactly one of
`{$in: v[]}`, `{$eq: v}`, `{$lt: n}`, `{$gt: n}` (the TypeScript union
`NumberQuery | AnyQuery<T[k]>`). -/
inductive FieldCond where
  | cin (vs : List Json)
  | ceq (v : Json)
  | clt (n : Int)
  | cgt (n : Int)
deriving Repr, DecidableEq

/-- Query tree `Query<T> = SimpleQuery<T> | CombinedQuery<T> | TextQuery`,
discriminated (as the source does with `in` checks) into text, `$and`, `$or`
and field-condition shapes. -/
inductive Query where
  | qtext (s : String)
  | qand (qs : List Query)
  | qor (qs : List Query)
  | qfield (conds : List (String × FieldCond))
deriving Repr

/-- Model of `record[key]` on a parsed record: field lookup in a JSON object,
`none` for a missing field or a non-object record (JS `undefined`). -/
def Json.getField : Json → String → Option Json
  | .obj fields, k => (fields.find? fun f => f.1 == k).map (·.2)
  | _, _ => none

/-- JS strict equality `===` between a query operand and a loaded record
value: value equality on primitives; arrays and objects compare by reference,
and a query operand is never the same reference as a freshly parsed value, so
those compare unequal. -/
def jsStrictEq : Json → Json → Bool
  | .null, .null => true
  | .bool a, .bool b => a == b
  | .num a, .num b => a == b
  | .str a, .str b => a == b
  | _, _ => false

/-- Evaluation of one operator object against `record[key]` (lines 150–158 of
`database.ts`): `$in` membership, `$eq` strict equality, then `$lt`/`$gt` only
when the runtime value is a number; everything else is a silent non-match
(`return false`). -/
def matchCond (queryObject : FieldCond) (value : Option Json) : Bool :=
  match queryObject with
  | .cin vs => match value with
    | some v => vs.any fun w => jsStrictEq w v
    | none => false
  | .ceq w => match value with
    | some v => jsStrictEq w v
    | none => false
  | .clt n => match value with
    | some (.num m) => decide (n > m)
    | _ => false
  | .cgt n => match value with
    | some (.num m) => decide (n < m)
    | _ => false

/-- A record matches a field query iff every key's operator object matches the
record's value at that key (`keys.every(...)`). -/
def matchesFieldQuery (conds : List (String × FieldCond)) (record : Json) : Bool :=
  conds.all fun kc => matchCond kc.2 (record.getField kc.1)

/-- Text-query predicate (lines 126–133): some configured full-text field
holds a string whose whitespace-split, lower-cased word list contains the
lower-cased `$text` value. -/
def textMatch (fullTextSearchFieldNames : List String) (txt : String)
    (record : Json) : Bool :=
  fullTextSearchFieldNames.any fun key =>
    match record.getField key with
    | some (.str value) => ((jsSplitWs value).map jsToLower).contains (jsToLower txt)
    | _ => false

/-- A loaded record together with the index of the row it was parsed from; the
index models the JS object reference (`Set#has` identity). -/
abbrev IRec := Nat × Json

/-- Model of `intersect2`: `b.filter(e => new Set(a).has(e))`. -/
def intersect2 {α : Type} [BEq α] (a b : List α) : List α :=
  b.filter fun e => a.contains e

/-- Model of `intersect`: the empty list of lists intersects to `[]`,
otherwise fold `intersect2` over the tail starting from the first list. -/
def intersect {α : Type} [BEq α] : List (List α) → List α
  | [] => []
  | first :: rest => rest.foldl intersect2 first

/-- First-seen-order deduplication, the iteration order of
`Array.from(new Set(xs))`. -/
def dedupFirstAux {α : Type} [BEq α] (seen : List α) : List α → List α
  | [] => []
  | a :: l =>
    if seen.contains a then dedupFirstAux seen l
    else a :: dedupFirstAux (a :: seen) l

/-- Model of `union`: concatenate all lists, then deduplicate preserving
first-seen order. -/
def union {α : Type} [BEq α] (arrs : List (List α)) : List α :=
  dedupFirstAux [] (arrs.foldl (fun p n => p ++ n) [])

mutual

/-- Model of `Database._find`: recursive query evaluation over the live
records of one call (each carrying its row index as identity). -/
def Database._find (db : Database) (records : List IRec) : Query → List IRec
  | .qtext s => records.filter fun r => textMatch db.fullTextSearchFieldNames s r.2
  | .qand qs => intersect (Database._findList db records qs)
  | .qor qs => union (Database._findList db records qs)
  | .qfield conds => records.filter fun r => matchesFieldQuery conds r.2

/-- `query.$and.map(q => this._find(records, q))` / the same for `$or`. -/
def Database._findList (db : Database) (records : List IRec) :
    List Query → List (List IRec)
  | [] => []
  | q :: qs => Database._find db records q :: Database._findList db records qs

end

/-- Rows paired with their position, starting at index `start`; the indices
model the object identity of the parsed rows. -/
def enumRows (start : Nat) : List Row → List (Nat × Row)
  | [] => []
  | r :: rs => (start, r) :: enumRows (start + 1) rs

/-- Model of `rows.filter(r => r.exists).map(r => r.data)` (line 84), keeping
each record's row index as its identity. -/
def liveRecords (rows : List Row) : List IRec :=
  ((enumRows 0 rows).filter fun p => p.2.«exists»).map fun p => (p.1, p.2.data)

/-- Sign-valued string comparison: the model of `a.localeCompare(b)` (zero
exactly on equal strings, which is all the sort comparator's correctness
depends on). -/
def charListCompare : List Char → List Char → Int
  | [], [] => 0
  | [], _ :: _ => -1
  | _ :: _, [] => 1
  | c :: cs, d :: ds =>
    if c = d then charListCompare cs ds else if c < d then -1 else 1

/-- Model of `aValue.localeCompare(bValue)`. -/
def strCompare (a b : String) : Int := charListCompare a.data b.data

/-- One key's comparator (lines 93–104): locale compare for two strings,
`(aValue < bValue ? -1 : 1)` for two numbers — note this never returns `0`,
even on equal numbers — and `0` for any other typing, each multiplied by the
key's direction. -/
def keyCompare (a b : Json) (key : String) (order : Int) : Int :=
  match a.getField key, b.getField key with
  | some (.str av), some (.str bv) => strCompare av bv * order
  | some (.num av), some (.num bv) => (if av < bv then -1 else 1) * order
  | _, _ => 0

/-- The sort comparator (line 106): the first non-zero per-key comparison in
key iteration order, or `0` if every key compares `0`. -/
def rowCompare (keys : List (String × Int)) (a b : Json) : Int :=
  ((keys.map fun ko => keyCompare a b ko.1 ko.2).find? fun n => decide (n ≠ 0)).getD 0

/-- Insert `x` at position `i` of `l` (the placement step of V8's
`BinaryInsertionSort`). -/
def insertAt {α : Type} (i : Nat) (x : α) (l : List α) : List α :=
  l.take i ++ x :: l.drop i

/-- The binary search of V8's `BinaryInsertionSort` (`array-sort.tq`): probe
`mid = left + (right - left) / 2`; `comparefn(pivot, a[mid]) < 0` moves
`right` to `mid`, otherwise `left` to `mid + 1`. The fuel only bounds the
loop; it never expires before `left = right`. -/
def binSearchAux {α : Type} (cmp : α → α → Int) (pivot : α) (arr : List α) :
    Nat → Nat → Nat → Nat
  | 0, left, _ => left
  | fuel + 1, left, right =>
    if left < right then
      let mid := left + (right - left) / 2
      match arr[mid]? with
      | some y =>
        if cmp pivot y < 0 then binSearchAux cmp pivot arr fuel left mid
        else binSearchAux cmp pivot arr fuel (mid + 1) right
      | none => left
    else left

/-- Insertion position of `pivot` in `sorted`, as V8's binary search finds it. -/
def binSearch {α : Type} (cmp : α → α → Int) (pivot : α) (sorted : List α) : Nat :=
  binSearchAux cmp pivot sorted (sorted.length + 1) 0 sorted.length

/-- V8's `BinaryInsertionSort`: take the remaining elements in order and
binary-insert each into the growing sorted prefix. -/
def binInsertAll {α : Type} (cmp : α → α → Int) : List α → List α → List α
  | acc, [] => acc
  | acc, x :: xs => binInsertAll cmp (insertAt (binSearch cmp x acc) x acc) xs

/-- Continuation of an ascending run in V8's `CountAndMakeRun`: keep taking
elements while `comparefn(current, previous) ≥ 0`. -/
def ascRun {α : Type} (cmp : α → α → Int) : α → List α → List α × List α
  | _, [] => ([], [])
  | prev, x :: xs =>
    if 0 ≤ cmp x prev then
      match ascRun cmp x xs with
      | (r, rest) => (x :: r, rest)
    else ([], x :: xs)

/-- Continuation of a descending run in V8's `CountAndMakeRun`: keep taking
elements while `comparefn(current, previous) < 0` (strictly). -/
def descRun {α : Type} (cmp : α → α → Int) : α → List α → List α × List α
  | _, [] => ([], [])
  | prev, x :: xs =>
    if cmp x prev < 0 then
      match descRun cmp x xs with
      | (r, rest) => (x :: r, rest)
    else ([], x :: xs)

/-- Model of `Array.prototype.sort` as the actual runtime (Node/V8 TimSort)
executes it on a result of fewer than 64 records, which is exactly: detect
the initial run — descending (first comparison `< 0`, extended strictly,
then reversed in place) or ascending (extended while `≥ 0`) — then
binary-insert every remaining element in order (`minRunLength n = n` for
`n < 64`, so no run merging occurs). For 64 or more records TimSort's run
merging engages; it agrees with this model for every consistent comparator
(both compute the unique stable result) and only that consistent region is
relied on beyond 63 records. -/
def sortJs {α : Type} (cmp : α → α → Int) (l : List α) : List α :=
  match l with
  | [] => []
  | [x] => [x]
  | a :: b :: rest =>
    if cmp b a < 0 then
      match descRun cmp b rest with
      | (r, rest1) => binInsertAll cmp (a :: b :: r).reverse rest1
    else
      match ascRun cmp b rest with
      | (r, rest1) => binInsertAll cmp (a :: b :: r) rest1

/-- `find` options: optional sort directions (`±1` per key, in iteration
order) and an optional projection field list. -/
structure Options where
  sort : Option (List (String × Int)) := none
  projection : Option (List String) := none

/-- Model of the projection step (lines 112–118): keep exactly the projected
fields of a record (a field absent from the record is absent from the
projection). -/
def project (projection : List String) (record : Json) : Json :=
  .obj (projection.filterMap fun k => (record.getField k).map fun v => (k, v))

/-- The matcher stage of `Database.find` (line 85): live records filtered by
the query, before sorting and projection; these are the record references the
method returns when no options are given. -/
def Database.findUnshaped (db : Database) (rows : List Row) (query : Query) :
    List IRec :=
  db._find (liveRecords rows) query

/-- The sort stage of `Database.find` (lines 87–108) applied to the matcher's
result, still carrying row identities. -/
def Database.findSortedRefs (db : Database) (rows : List Row) (query : Query)
    (keys : List (String × Int)) : List IRec :=
  sortJs (fun a b => rowCompare keys a.2 b.2) (db.findUnshaped rows query)

/-- Model of `Database.find` on loaded rows: filter live rows, match, sort
when requested, then project (or return the records themselves). -/
def Database.find (db : Database) (rows : List Row) (query : Query)
    (options : Options) : List Json :=
  let result := db.findUnshaped rows query
  let result := match options.sort with
    | none => result
    | some keys => sortJs (fun a b => rowCompare keys a.2 b.2) result
  match options.projection with
  | none => result.map (·.2)
  | some projection => result.map fun r => project projection r.2

/-- Model of `Database.insert` at the loaded-rows level: `insert` appends the
line `E${JSON.stringify(record)}\n` to the file, which loads as one additional
live row holding the record (`JSON.parse ∘ JSON.stringify` is the identity on
record content). -/
def Database.insert (rows : List Row) (record : Json) : List Row :=
  rows ++ [⟨true, record⟩]

/-- Model of `Database.insert` at the file level: append one live-marked line. -/
def Database.insertFile (contents : String) (record : Json) : String :=
  contents ++ String.mk ('E' :: Json.stringify record ++ ['\n'])

/-- Model of `Database.delete` at the loaded-rows level (lines 170–180): match
the query against the live records, then flip `exists` to `false` on every row
whose record is in the matched set (`Set#has` on the parsed row's reference,
i.e. its index), keeping every dead row dead and every payload unchanged. -/
def Database.deleteRows (db : Database) (rows : List Row) (query : Query) :
    List Row :=
  let deletedRecords := db._find (liveRecords rows) query
  (enumRows 0 rows).map fun ir =>
    ⟨if ir.2.«exists» then !deletedRecords.contains (ir.1, ir.2.data) else false,
      ir.2.data⟩

/-- Serialization of one row for the full-file rewrite (line 182). -/
def rowLine (r : Row) : List Char :=
  (if r.«exists» then 'E' else 'D') :: Json.stringify r.data ++ ['\n']

/-- Model of `Database.find` at the file level: load, then find; a load
failure propagates. -/
def Database.findFile (db : Database) (contents : String) (query : Query)
    (options : Options) : Except String (List Json) :=
  (Database._load contents).map fun rows => db.find rows query options

/-- Model of `Database.delete` at the file level: load, mark, rewrite the
whole file; a load failure propagates and nothing is written. -/
def Database.deleteFile (db : Database) (contents : String) (query : Query) :
    Except String String :=
  (Database._load contents).map fun rows =>
    String.mk (((db.deleteRows rows query).map rowLine).flatten)

theorem contains_iff_mem {α : Type} [BEq α] [LawfulBEq α] {l : List α} {x : α} :
    l.contains x = true ↔ x ∈ l := by
  simp [List.contains_iff_exists_mem_beq, beq_iff_eq]

theorem mem_insertAt {α : Type} (i : Nat) (x y : α) (l : List α) :
    y ∈ insertAt i x l ↔ y = x ∨ y ∈ l := by
  have hl : l.take i ++ l.drop i = l := List.take_append_drop i l
  simp only [insertAt, List.mem_append, List.mem_cons]
  constructor
  · rintro (h | rfl | h)
    · exact Or.inr (by rw [← hl]; exact List.mem_append.mpr (Or.inl h))
    · exact Or.inl rfl
    · exact Or.inr (by rw [← hl]; exact List.mem_append.mpr (Or.inr h))
  · rintro (rfl | h)
    · exact Or.inr (Or.inl rfl)
    · rw [← hl] at h
      rcases List.mem_append.mp h with h | h
      · exact Or.inl h
      · exact Or.inr (Or.inr h)

theorem mem_binInsertAll {α : Type} (cmp : α → α → Int) (y : α) :
    ∀ (rest acc : List α), y ∈ binInsertAll cmp acc rest ↔ y ∈ acc ∨ y ∈ rest := by
  intro rest
  induction rest with
  | nil => intro acc; simp [binInsertAll]
  | cons x xs ih =>
    intro acc
    simp only [binInsertAll, ih, mem_insertAt, List.mem_cons]
    tauto

theorem ascRun_append {α : Type} (cmp : α → α → Int) :
    ∀ (l : List α) (prev : α), (ascRun cmp prev l).1 ++ (ascRun cmp prev l).2 = l := by
  intro l
  induction l with
  | nil => intro prev; rfl
  | cons x xs ih =>
    intro prev
    simp only [ascRun]
    by_cases h : 0 ≤ cmp x prev
    · rw [if_pos h]
      have := ih x
      cases hxr : ascRun cmp x xs with
      | mk r rest =>
        rw [hxr] at this
        simpa using this
    · rw [if_neg h]
      rfl

theorem descRun_append {α : Type} (cmp : α → α → Int) :
    ∀ (l : List α) (prev : α), (descRun cmp prev l).1 ++ (descRun cmp prev l).2 = l := by
  intro l
  induction l with
  | nil => intro prev; rfl
  | cons x xs ih =>
    intro prev
    simp only [descRun]
    by_cases h : cmp x prev < 0
    · rw [if_pos h]
      have := ih x
      cases hxr : descRun cmp x xs with
      | mk r rest =>
        rw [hxr] at this
        simpa using this
    · rw [if_neg h]
      rfl

theorem mem_sortJs {α : Type} (cmp : α → α → Int) (y : α) (l : List α) :
    y ∈ sortJs cmp l ↔ y ∈ l := by
  match l with
  | [] => rfl
  | [x] => rfl
  | a :: b :: rest =>
    simp only [sortJs]
    by_cases h : cmp b a < 0
    · rw [if_pos h]
      cases hdr : descRun cmp b rest with
      | mk r rest1 =>
        have happ := descRun_append cmp rest b
        rw [hdr] at happ
        simp only at happ
        rw [mem_binInsertAll, List.mem_reverse]
        simp only [List.mem_cons, ← happ, List.mem_append]
        tauto
    · rw [if_neg h]
      cases har : ascRun cmp b rest with
      | mk r rest1 =>
        have happ := ascRun_append cmp rest b
        rw [har] at happ
        simp only at happ
        rw [mem_binInsertAll]
        simp only [List.mem_cons, ← happ, List.mem_append]
        tauto

/-- Whether a list's consecutive elements all compare `≥ 0` (an ascending run
for V8's run detection, which then leaves the list untouched). -/
def ascendingBy {α : Type} (cmp : α → α → Int) : List α → Bool
  | [] => true
  | [_] => true
  | x :: y :: rest => decide (0 ≤ cmp y x) && ascendingBy cmp (y :: rest)

theorem ascRun_of_ascendingBy {α : Type} (cmp : α → α → Int) :
    ∀ (l : List α) (prev : α), ascendingBy cmp (prev :: l) = true →
      ascRun cmp prev l = (l, []) := by
  intro l
  induction l with
  | nil => intro prev _; rfl
  | cons x xs ih =>
    intro prev h
    simp only [ascendingBy, Bool.and_eq_true, decide_eq_true_eq] at h
    simp only [ascRun, if_pos h.1, ih x h.2]

theorem sortJs_of_ascendingBy {α : Type} (cmp : α → α → Int) (l : List α)
    (h : ascendingBy cmp l = true) : sortJs cmp l = l := by
  match l with
  | [] => rfl
  | [x] => rfl
  | a :: b :: rest =>
    simp only [ascendingBy, Bool.and_eq_true, decide_eq_true_eq] at h
    have hnotlt : ¬ cmp b a < 0 := by omega
    simp only [sortJs, if_neg hnotlt, ascRun_of_ascendingBy cmp rest b h.2]
    rfl

theorem mem_dedupFirstAux {α : Type} [BEq α] [LawfulBEq α] (x : α) :
    ∀ (l seen : List α), x ∈ dedupFirstAux seen l ↔ x ∈ l ∧ ¬ x ∈ seen := by
  intro l
  induction l with
  | nil => simp [dedupFirstAux]
  | cons a l ih =>
    intro seen
    simp only [dedupFirstAux]
    by_cases h : seen.contains a = true
    · rw [if_pos h, ih]
      have ha : a ∈ seen := contains_iff_mem.mp h
      simp only [List.mem_cons]
      constructor
      · rintro ⟨hl, hs⟩
        exact ⟨Or.inr hl, hs⟩
      · rintro ⟨rfl | hl, hs⟩
        · exact absurd ha hs
        · exact ⟨hl, hs⟩
    · rw [if_neg h]
      have ha : ¬ a ∈ seen := fun hm => h (contains_iff_mem.mpr hm)
      simp only [List.mem_cons, ih]
      constructor
      · rintro (rfl | ⟨hl, hs⟩)
        · exact ⟨Or.inl rfl, ha⟩
        · exact ⟨Or.inr hl, fun hm => hs (Or.inr hm)⟩
      · rintro ⟨rfl | hl, hs⟩
        · exact Or.inl rfl
        · by_cases hxa : x = a
          · exact Or.inl hxa
          · exact Or.inr ⟨hl, fun hm => by
              rcases hm with h1 | h2
              · exact hxa h1
              · exact hs h2⟩

theorem mem_foldl_append {α : Type} (x : α) :
    ∀ (L : List (List α)) (init : List α),
      x ∈ L.foldl (fun p n => p ++ n) init ↔ x ∈ init ∨ ∃ l ∈ L, x ∈ l := by
  intro L
  induction L with
  | nil => simp
  | cons a L ih =>
    intro init
    simp only [List.foldl_cons, ih, List.mem_append, List.mem_cons]
    constructor
    · rintro ((h | h) | ⟨l, hl, hxl⟩)
      · exact Or.inl h
      · exact Or.inr ⟨a, Or.inl rfl, h⟩
      · exact Or.inr ⟨l, Or.inr hl, hxl⟩
    · rintro (h | ⟨l, rfl | hl, hxl⟩)
      · exact Or.inl (Or.inl h)
      · exact Or.inl (Or.inr hxl)
      · exact Or.inr ⟨l, hl, hxl⟩

theorem mem_union {α : Type} [BEq α] [LawfulBEq α] (arrs : List (List α)) (x : α) :
    x ∈ union arrs ↔ ∃ l ∈ arrs, x ∈ l := by
  simp [union, mem_dedupFirstAux, mem_foldl_append]

theorem mem_intersect2 {α : Type} [BEq α] [LawfulBEq α] {a b : List α} {x : α} :
    x ∈ intersect2 a b ↔ x ∈ b ∧ x ∈ a := by
  simp [intersect2, List.mem_filter, contains_iff_mem]

theorem foldl_intersect2_subset {α : Type} [BEq α] [LawfulBEq α]
    (records : List α) :
    ∀ (L : List (List α)) (acc : List α), (∀ x ∈ acc, x ∈ records) →
      ∀ x ∈ L.foldl intersect2 acc, x ∈ records := by
  intro L
  induction L with
  | nil => intro acc hacc; exact hacc
  | cons a L ih =>
    intro acc hacc x hx
    exact ih (intersect2 acc a) (fun y hy => hacc y (mem_intersect2.mp hy).2) x hx

theorem foldl_intersect2_congr {α : Type} [BEq α] [LawfulBEq α] (u v : α) :
    ∀ (L : List (List α)) (acc : List α), (u ∈ acc ↔ v ∈ acc) →
      (∀ l ∈ L, (u ∈ l ↔ v ∈ l)) →
      (u ∈ L.foldl intersect2 acc ↔ v ∈ L.foldl intersect2 acc) := by
  intro L
  induction L with
  | nil => intro acc hacc _; exact hacc
  | cons a L ih =>
    intro acc hacc hL
    refine ih (intersect2 acc a) ?_ (fun l hl => hL l (List.mem_cons.mpr (Or.inr hl)))
    rw [mem_intersect2, mem_intersect2, hacc, hL a (List.mem_cons.mpr (Or.inl rfl))]

mutual

theorem find_subset (db : Database) (records : List IRec) :
    ∀ (q : Query), ∀ x ∈ db._find records q, x ∈ records
  | .qtext s => fun x hx => (List.mem_filter.mp hx).1
  | .qand qs => fun x hx => by
    simp only [Database._find, intersect] at hx
    cases hqs : Database._findList db records qs with
    | nil => rw [hqs] at hx; simp at hx
    | cons first rest =>
      rw [hqs] at hx
      have hall := findList_subset db records qs
      rw [hqs] at hall
      exact foldl_intersect2_subset records rest first
        (hall first (List.mem_cons.mpr (Or.inl rfl))) x hx
  | .qor qs => fun x hx => by
    simp only [Database._find] at hx
    rw [mem_union] at hx
    obtain ⟨l, hl, hxl⟩ := hx
    exact findList_subset db records qs l hl x hxl
  | .qfield conds => fun x hx => (List.mem_filter.mp hx).1

theorem findList_subset (db : Database) (records : List IRec) :
    ∀ (qs : List Query), ∀ l ∈ Database._findList db records qs, ∀ x ∈ l, x ∈ records
  | [] => fun l hl => by simp [Database._findList] at hl
  | q :: qs => fun l hl => by
    simp only [Database._findList, List.mem_cons] at hl
    rcases hl with rfl | hl
    · exact find_subset db records q
    · exact findList_subset db records qs l hl

end

mutual

theorem find_congr (db : Database) (records : List IRec) (i j : Nat) (r : Json)
    (hi : (i, r) ∈ records) (hj : (j, r) ∈ records) :
    ∀ (q : Query), ((i, r) ∈ db._find records q ↔ (j, r) ∈ db._find records q)
  | .qtext s => by
    simp only [Database._find, List.mem_filter]
    simp [hi, hj]
  | .qand qs => by
    simp only [Database._find, intersect]
    have hall := findList_congr db records i j r hi hj qs
    cases hqs : Database._findList db records qs with
    | nil => simp
    | cons first rest =>
      rw [hqs] at hall
      exact foldl_intersect2_congr _ _ rest first
        (hall first (List.mem_cons.mpr (Or.inl rfl)))
        (fun l hl => hall l (List.mem_cons.mpr (Or.inr hl)))
  | .qor qs => by
    simp only [Database._find]
    rw [mem_union, mem_union]
    have hall := findList_congr db records i j r hi hj qs
    constructor
    · rintro ⟨l, hl, hxl⟩
      exact ⟨l, hl, (hall l hl).mp hxl⟩
    · rintro ⟨l, hl, hxl⟩
      exact ⟨l, hl, (hall l hl).mpr hxl⟩
  | .qfield conds => by
    simp only [Database._find, List.mem_filter]
    simp [hi, hj]

theorem findList_congr (db : Database) (records : List IRec) (i j : Nat) (r : Json)
    (hi : (i, r) ∈ records) (hj : (j, r) ∈ records) :
    ∀ (qs : List Query), ∀ l ∈ Database._findList db records qs,
      ((i, r) ∈ l ↔ (j, r) ∈ l)
  | [] => fun l hl => by simp [Database._findList] at hl
  | q :: qs => fun l hl => by
    simp only [Database._findList, List.mem_cons] at hl
    rcases hl with rfl | hl
    · exact find_congr db records i j r hi hj q
    · exact findList_congr db records i j r hi hj qs l hl

end

theorem enumRows_getElem? :
    ∀ (l : List Row) (s k : Nat), (enumRows s l)[k]? = l[k]?.map fun r => (s + k, r)
  | [], s, k => by simp [enumRows]
  | r :: rs, s, 0 => by simp [enumRows]
  | r :: rs, s, k + 1 => by
    have hrec := enumRows_getElem? rs (s + 1) k
    simp only [enumRows, List.getElem?_cons_succ, hrec]
    have hsk : s + 1 + k = s + (k + 1) := by omega
    rw [hsk]

theorem mem_enumRows (p : Nat × Row) :
    ∀ (l : List Row) (s : Nat), p ∈ enumRows s l ↔ ∃ k, l[k]? = some p.2 ∧ p.1 = s + k := by
  intro l
  induction l with
  | nil => intro s; simp [enumRows]
  | cons r rs ih =>
    intro s
    simp only [enumRows, List.mem_cons, ih]
    constructor
    · rintro (rfl | ⟨k, hk, hp⟩)
      · exact ⟨0, by simp⟩
      · exact ⟨k + 1, by simpa using hk, by omega⟩
    · rintro ⟨k, hk, hp⟩
      cases k with
      | zero =>
        simp only [List.getElem?_cons_zero, Option.some.injEq] at hk
        left
        cases p
        simp_all
      | succ k =>
        right
        exact ⟨k, by simpa using hk, by omega⟩

theorem mem_liveRecords (rows : List Row) (n : Nat) (d : Json) :
    (n, d) ∈ liveRecords rows ↔
      ∃ row, rows[n]? = some row ∧ row.«exists» = true ∧ row.data = d := by
  simp only [liveRecords, List.mem_map, List.mem_filter]
  constructor
  · rintro ⟨p, ⟨hmem, hlive⟩, heq⟩
    obtain ⟨k, hk, hp1⟩ := (mem_enumRows p rows 0).mp hmem
    obtain ⟨h1, h2⟩ := Prod.mk.injEq .. ▸ heq
    refine ⟨p.2, ?_, hlive, h2⟩
    rw [← h1, hp1]
    simpa using hk
  · rintro ⟨row, hrow, hlive, hdata⟩
    refine ⟨(n, row), ⟨(mem_enumRows (n, row) rows 0).mpr ⟨n, by simpa using hrow, by omega⟩, hlive⟩, by simp [hdata]⟩

theorem deleteRows_getElem? (db : Database) (rows : List Row) (q : Query) (i : Nat) :
    (db.deleteRows rows q)[i]? = rows[i]?.map fun row =>
      ⟨row.«exists» && !((db._find (liveRecords rows) q).contains (i, row.data)),
        row.data⟩ := by
  show ((enumRows 0 rows).map fun ir =>
      (⟨if ir.2.«exists»
          then !((db._find (liveRecords rows) q).contains (ir.1, ir.2.data))
          else false, ir.2.data⟩ : Row))[i]? = _
  rw [List.getElem?_map, enumRows_getElem?]
  cases hrow : rows[i]? with
  | none => rfl
  | some row =>
    simp only [Option.map_some, Option.map_some', Nat.zero_add]
    cases hex : row.«exists» <;> simp [hex]

theorem mapM_except_error_iff {ε α β : Type} (f : α → Except ε β) :
    ∀ (l : List α), (∃ e, l.mapM f = .error e) ↔ ∃ x ∈ l, ∃ e, f x = .error e := by
  intro l
  induction l with
  | nil =>
    constructor
    · rintro ⟨e, he⟩
      rw [List.mapM_nil] at he
      exact absurd he (by simp [pure, Except.pure])
    · rintro ⟨x, hx, _⟩
      simp at hx
  | cons a l ih =>
    rw [List.mapM_cons]
    cases hfa : f a with
    | error e =>
      constructor
      · intro
        exact ⟨a, List.mem_cons.mpr (Or.inl rfl), e, hfa⟩
      · intro
        exact ⟨e, rfl⟩
    | ok b =>
      cases hrec : l.mapM f with
      | error e =>
        constructor
        · intro
          obtain ⟨x, hx, he⟩ := ih.mp ⟨e, hrec⟩
          exact ⟨x, List.mem_cons.mpr (Or.inr hx), he⟩
        · intro
          exact ⟨e, rfl⟩
      | ok bs =>
        constructor
        · rintro ⟨e, he⟩
          have hok : Except.ok (b :: bs) = Except.error e := he
          exact absurd hok (by simp)
        · rintro ⟨x, hx, e, he⟩
          rcases List.mem_cons.mp hx with rfl | hx
          · rw [hfa] at he
            exact absurd he (by simp)
          · obtain ⟨e1, he1⟩ := ih.mpr ⟨x, hx, e, he⟩
            rw [hrec] at he1
            exact absurd he1 (by simp)

theorem mem_find_no_projection (db : Database) (rows : List Row) (q : Query)
    (keys : Option (List (String × Int))) (d : Json) :
    d ∈ db.find rows q ⟨keys, none⟩ ↔ ∃ n, (n, d) ∈ db.findUnshaped rows q := by
  cases keys with
  | none =>
    simp only [Database.find, Database.findUnshaped, List.mem_map]
    constructor
    · rintro ⟨x, hx, rfl⟩
      exact ⟨x.1, hx⟩
    · rintro ⟨n, hn⟩
      exact ⟨(n, d), hn, rfl⟩
  | some ks =>
    simp only [Database.find, Database.findUnshaped, List.mem_map]
    constructor
    · rintro ⟨x, hx, rfl⟩
      exact ⟨x.1, (mem_sortJs _ _ _).mp hx⟩
    · rintro ⟨n, hn⟩
      exact ⟨(n, d), (mem_sortJs _ _ _).mpr hn, rfl⟩

theorem textMatch_iff (fields : List String) (txt : String) (record : Json) :
    textMatch fields txt record = true ↔
      ∃ k ∈ fields, ∃ v, record.getField k = some (.str v) ∧
        jsToLower txt ∈ (jsSplitWs v).map jsToLower := by
  simp only [textMatch, List.any_eq_true]
  constructor
  · rintro ⟨k, hk, hm⟩
    cases hv : record.getField k with
    | none => rw [hv] at hm; exact absurd hm (by simp)
    | some v =>
      rw [hv] at hm
      cases v with
      | str sv => exact ⟨k, hk, sv, hv, contains_iff_mem.mp hm⟩
      | null => exact absurd hm (by simp)
      | bool b => exact absurd hm (by simp)
      | num n => exact absurd hm (by simp)
      | arr xs => exact absurd hm (by simp)
      | obj fs => exact absurd hm (by simp)
  · rintro ⟨k, hk, v, hv, hmem⟩
    refine ⟨k, hk, ?_⟩
    rw [hv]
    exact contains_iff_mem.mpr hmem

theorem _find_qfield_nil (db : Database) (records : List IRec) :
    db._find records (.qfield []) = records := by
  simp [Database._find, matchesFieldQuery]

theorem enumRows_append : ∀ (l1 : List Row) (s : Nat) (l2 : List Row),
    enumRows s (l1 ++ l2) = enumRows s l1 ++ enumRows (s + l1.length) l2
  | [], s, l2 => by simp [enumRows]
  | r :: rs, s, l2 => by
    have hrec := enumRows_append rs (s + 1) l2
    have hn : s + 1 + rs.length = s + (rs.length + 1) := by omega
    show (s, r) :: enumRows (s + 1) (rs ++ l2) =
      (s, r) :: (enumRows (s + 1) rs ++ enumRows (s + (rs.length + 1)) l2)
    rw [hrec, hn]

theorem liveRecords_append_live (rows : List Row) (r : Json) :
    liveRecords (rows ++ [⟨true, r⟩]) = liveRecords rows ++ [(rows.length, r)] := by
  simp [liveRecords, enumRows_append rows 0 [⟨true, r⟩], enumRows,
    List.filter_append, List.map_append]

theorem enumRows_length : ∀ (l : List Row) (s : Nat), (enumRows s l).length = l.length
  | [], _ => rfl
  | r :: rs, s => by simp [enumRows, enumRows_length rs (s + 1)]

theorem enumRows_map_data : ∀ (l : List Row) (s : Nat),
    ((enumRows s l).map fun p => p.2.data) = l.map Row.data
  | [], _ => rfl
  | r :: rs, s => by simp [enumRows, enumRows_map_data rs (s + 1)]

/-- Store configuration used by the concrete examples: full-text search over
the `bio` field. -/
def sampleDb : Database := ⟨"users.txt", ["bio"]⟩

/-- Sample record `{name:"ann", age:30}`. -/
def recAnn : Json := .obj [("name", .str "ann"), ("age", .num 30)]

/-- Sample record `{name:"bob", age:30}` (same age as `recAnn`). -/
def recBob : Json := .obj [("name", .str "bob"), ("age", .num 30)]

/-- C7: a field clause `{$lt: n}` matches a record iff the record's value at
that field is a number strictly less than `n`, and `{$gt: n}` iff it is a
number strictly greater than `n`; a value equal to `n` matches neither, and a
non-numeric (or missing) field value is a silent non-match, never an error. -/
theorem comparison_operator_semantics (r : Json) (k : String) (n : Int) :
    (matchesFieldQuery [(k, .clt n)] r = true ↔
      ∃ m, r.getField k = some (.num m) ∧ m < n) ∧
    (matchesFieldQuery [(k, .cgt n)] r = true ↔
      ∃ m, r.getField k = some (.num m) ∧ n < m) ∧
    (r.getField k = some (.num n) →
      matchesFieldQuery [(k, .clt n)] r = false ∧
      matchesFieldQuery [(k, .cgt n)] r = false) := by
  have hlt : matchesFieldQuery [(k, .clt n)] r = matchCond (.clt n) (r.getField k) := by
    simp [matchesFieldQuery]
  have hgt : matchesFieldQuery [(k, .cgt n)] r = matchCond (.cgt n) (r.getField k) := by
    simp [matchesFieldQuery]
  refine ⟨?_, ?_, ?_⟩
  · rw [hlt]
    cases hv : r.getField k with
    | none => simp [matchCond]
    | some v => cases v <;> simp [matchCond]
  · rw [hgt]
    cases hv : r.getField k with
    | none => simp [matchCond]
    | some v => cases v <;> simp [matchCond]
  · intro hv
    rw [hlt, hgt, hv]
    simp [matchCond]

/-- Witness for `comparison_operator_semantics` at the boundary input of the
specification's example: field value `10` matches neither `{$lt: 10}` nor
`{$gt: 10}`. -/
theorem comparison_operator_semantics_witness :
    matchesFieldQuery [("age", FieldCond.clt 10)] (Json.obj [("age", Json.num 10)]) = false ∧
    matchesFieldQuery [("age", FieldCond.cgt 10)] (Json.obj [("age", Json.num 10)]) = false :=
  (comparison_operator_semantics (Json.obj [("age", Json.num 10)]) "age" 10).2.2 (by decide)

/-- C8: a record matches `{$text: s}` iff some configured full-text field
holds a string whose whitespace-split, lower-cased token list contains
lower-cased `s` as an exact token; in particular `"fast"` matches the bio
`"fast and curious"` while the proper substring `"fas"` does not. -/
theorem text_query_semantics (db : Database) (records : List IRec) (s : String)
    (x : IRec) :
    (x ∈ db._find records (.qtext s) ↔
      x ∈ records ∧ ∃ k ∈ db.fullTextSearchFieldNames, ∃ v,
        x.2.getField k = some (.str v) ∧ jsToLower s ∈ (jsSplitWs v).map jsToLower) ∧
    textMatch ["bio"] "fast" (.obj [("bio", .str "fast and curious")]) = true ∧
    textMatch ["bio"] "fas" (.obj [("bio", .str "fast and curious")]) = false := by
  refine ⟨?_, by decide, by decide⟩
  show x ∈ (records.filter fun r => textMatch db.fullTextSearchFieldNames s r.2) ↔ _
  rw [List.mem_filter, textMatch_iff]

/-- Witness for `text_query_semantics` at a concrete record and query. -/
theorem text_query_semantics_witness :
    ((0, Json.obj [("bio", Json.str "fast and curious")]) ∈
        sampleDb._find [(0, Json.obj [("bio", Json.str "fast and curious")])]
          (.qtext "fast")) ∧
    textMatch ["bio"] "fas" (.obj [("bio", .str "fast and curious")]) = false := by
  constructor
  · refine (text_query_semantics sampleDb
      [(0, Json.obj [("bio", Json.str "fast and curious")])] "fast"
      (0, Json.obj [("bio", Json.str "fast and curious")])).1.mpr ?_
    refine ⟨by decide, "bio", by decide, "fast and curious", by decide, by decide⟩
  · exact (text_query_semantics sampleDb [] "fast" (0, Json.null)).2.2

/-- C3: inserting a record `r` into any store state and then running `find`
with the empty (match-all) field query returns exactly the previous result
with `r` appended once, all fields intact. -/
theorem insert_find_roundtrip (db : Database) (rows : List Row) (r : Json) :
    db.find (Database.insert rows r) (.qfield []) ⟨none, none⟩ =
      db.find rows (.qfield []) ⟨none, none⟩ ++ [r] := by
  show ((db._find (liveRecords (rows ++ [⟨true, r⟩])) (.qfield [])).map (·.2)) =
    ((db._find (liveRecords rows) (.qfield [])).map (·.2)) ++ [r]
  rw [_find_qfield_nil, _find_qfield_nil, liveRecords_append_live, List.map_append]
  rfl

/-- C6: `delete` rewrites the file with exactly one row per original row, in
the original order, each payload unchanged, and the live flag of row `i`
becomes its old flag and-ed with "not matched by the delete query" — so only
live-flags of matched rows are flipped, and nothing is truncated or
reordered. -/
theorem delete_preserves_rows (db : Database) (rows : List Row) (q : Query) :
    (db.deleteRows rows q).length = rows.length ∧
    (db.deleteRows rows q).map Row.data = rows.map Row.data ∧
    ∀ (i : Nat) (row : Row), rows[i]? = some row →
      (db.deleteRows rows q)[i]? = some
        (⟨row.«exists» &&
            !((db._find (liveRecords rows) q).contains (i, row.data)),
          row.data⟩ : Row) := by
  refine ⟨?_, ?_, ?_⟩
  · show ((enumRows 0 rows).map _).length = rows.length
    rw [List.length_map, enumRows_length]
  · show (((enumRows 0 rows).map _).map Row.data) = rows.map Row.data
    rw [List.map_map, ← enumRows_map_data rows 0]
    rfl
  · intro i row hrow
    rw [deleteRows_getElem?, hrow]
    rfl

/-- Witness for `delete_preserves_rows`'s per-row clause at a concrete store:
deleting `{name:{$eq:"ann"}}` flips exactly the matching live row. -/
theorem delete_preserves_rows_witness :
    (sampleDb.deleteRows [⟨true, recAnn⟩, ⟨true, recBob⟩]
        (.qfield [("name", .ceq (.str "ann"))]))[0]? = some
      ⟨(⟨true, recAnn⟩ : Row).«exists» &&
        !((sampleDb._find (liveRecords [⟨true, recAnn⟩, ⟨true, recBob⟩])
            (.qfield [("name", .ceq (.str "ann"))])).contains (0, (⟨true, recAnn⟩ : Row).data)),
        (⟨true, recAnn⟩ : Row).data⟩ :=
  (delete_preserves_rows sampleDb [⟨true, recAnn⟩, ⟨true, recBob⟩]
    (.qfield [("name", .ceq (.str "ann"))])).2.2 0 ⟨true, recAnn⟩ (by decide)

/-- C10: tombstones are monotone — a row that is dead before a `delete` is
still dead (with its payload unchanged) after it, and `insert` leaves every
existing row untouched, so no operation revives a tombstoned row. -/
theorem tombstone_monotone (db : Database) (rows : List Row) (q : Query)
    (r : Json) (i : Nat) (row : Row) (hrow : rows[i]? = some row)
    (hdead : row.«exists» = false) :
    (db.deleteRows rows q)[i]? = some ⟨false, row.data⟩ ∧
    (Database.insert rows r)[i]? = some row := by
  constructor
  · rw [deleteRows_getElem?, hrow]
    simp [hdead]
  · have hi : i < rows.length := by
      rcases List.getElem?_eq_some_iff.mp hrow with ⟨h, _⟩
      exact h
    rw [Database.insert, List.getElem?_append_left hi]
    exact hrow

/-- Witness for `tombstone_monotone` at a concrete store with a dead first
row. -/
theorem tombstone_monotone_witness :
    (sampleDb.deleteRows [⟨false, recAnn⟩, ⟨true, recBob⟩] (.qfield []))[0]? =
      some ⟨false, recAnn⟩ ∧
    (Database.insert [⟨false, recAnn⟩, ⟨true, recBob⟩] recBob)[0]? =
      some ⟨false, recAnn⟩ :=
  tombstone_monotone sampleDb [⟨false, recAnn⟩, ⟨true, recBob⟩] (.qfield [])
    recBob 0 ⟨false, recAnn⟩ (by decide) (by decide)

/-- C5: `find {$or:[q1,q2]}` is exactly the first-seen-order deduplicated
union of the two sub-results; `find {$and:[q1,q2]}` is contained in both
sub-results; and the empty `$and` and the empty `$or` both evaluate to the
empty result (no universal set). -/
theorem combinator_set_algebra (db : Database) (rows : List Row) (q1 q2 : Query) :
    db.findUnshaped rows (.qor [q1, q2]) =
      dedupFirstAux [] (db.findUnshaped rows q1 ++ db.findUnshaped rows q2) ∧
    (∀ x, x ∈ db.findUnshaped rows (.qand [q1, q2]) →
      x ∈ db.findUnshaped rows q1 ∧ x ∈ db.findUnshaped rows q2) ∧
    db.findUnshaped rows (.qand []) = [] ∧
    db.findUnshaped rows (.qor []) = [] := by
  refine ⟨rfl, ?_, rfl, rfl⟩
  intro x hx
  have hx2 : x ∈ intersect2 (db.findUnshaped rows q1) (db.findUnshaped rows q2) := hx
  have := mem_intersect2.mp hx2
  exact ⟨this.2, this.1⟩

/-- Witness for `combinator_set_algebra`'s `$and` clause at a concrete store. -/
theorem combinator_set_algebra_witness :
    (0, recAnn) ∈ sampleDb.findUnshaped [⟨true, recAnn⟩, ⟨true, recBob⟩]
        (.qand [.qfield [("age", .cgt 25)], .qfield [("name", .ceq (.str "ann"))]]) ∧
    ((0, recAnn) ∈ sampleDb.findUnshaped [⟨true, recAnn⟩, ⟨true, recBob⟩]
        (.qfield [("age", .cgt 25)]) ∧
      (0, recAnn) ∈ sampleDb.findUnshaped [⟨true, recAnn⟩, ⟨true, recBob⟩]
        (.qfield [("name", .ceq (.str "ann"))])) :=
  ⟨by decide,
    (combinator_set_algebra sampleDb [⟨true, recAnn⟩, ⟨true, recBob⟩]
      (.qfield [("age", .cgt 25)]) (.qfield [("name", .ceq (.str "ann"))])).2.1
      (0, recAnn) (by decide)⟩

/-- C2 counterexample: the line `X{"a":1}` has no valid marker prefix (first
character `X`, neither `E` nor `D`), yet `load` raises no error: it silently
reinterprets the line as a dead (tombstoned) row with payload `{"a":1}`. -/
theorem load_invalid_marker_counterexample :
    Database._load "X\x7b\"a\":1\x7d" =
      .ok [⟨false, Json.obj [("a", Json.num 1)]⟩] := by decide

/-- C2 amended: `load` fails exactly when some line's payload (the line after
its first character) is undecodable JSON; the marker character is never
validated — any first character other than `E` loads as a dead row. -/
theorem load_error_iff_undecodable_payload (contents : String) :
    (∃ e, Database._load contents = .error e) ↔
      ∃ line ∈ splitNl (jsTrim contents.data), parseJson (line.drop 1) = none := by
  show (∃ e, (splitNl (jsTrim contents.data)).mapM _ = Except.error e) ↔ _
  rw [mapM_except_error_iff]
  constructor
  · rintro ⟨line, hline, e, he⟩
    refine ⟨line, hline, ?_⟩
    cases hp : parseJson (line.drop 1) with
    | none => rfl
    | some d =>
      rw [hp] at he
      exact absurd he (by simp)
  · rintro ⟨line, hline, hp⟩
    refine ⟨line, hline, String.mk line, ?_⟩
    rw [hp]

/-- C9: on a file whose contents trim to the empty string (zero bytes or
whitespace only), `load` splits the trimmed contents into one empty line and
fails decoding its payload, so both `find` and `delete` fail with that
payload-decode error instead of producing an empty record set. -/
theorem empty_file_find_delete_error (db : Database) (contents : String)
    (q : Query) (options : Options) (h : jsTrim contents.data = []) :
    (∃ e, db.findFile contents q options = .error e) ∧
    (∃ e, db.deleteFile contents q = .error e) := by
  have hload : Database._load contents = .error "" := by
    show (splitNl (jsTrim contents.data)).mapM _ = Except.error ""
    rw [h]
    rfl
  constructor
  · refine ⟨"", ?_⟩
    show (Database._load contents).map _ = Except.error ""
    rw [hload]
    rfl
  · refine ⟨"", ?_⟩
    show (Database._load contents).map _ = Except.error ""
    rw [hload]
    rfl

/-- Witness for `empty_file_find_delete_error` on the zero-byte file and on a
whitespace-only file. -/
theorem empty_file_find_delete_error_witness :
    ((∃ e, sampleDb.findFile "" (.qfield []) ⟨none, none⟩ = .error e) ∧
      (∃ e, sampleDb.deleteFile "" (.qfield []) = .error e)) ∧
    ((∃ e, sampleDb.findFile " \n " (.qfield []) ⟨none, none⟩ = .error e) ∧
      (∃ e, sampleDb.deleteFile " \n " (.qfield []) = .error e)) :=
  ⟨empty_file_find_delete_error sampleDb "" (.qfield []) ⟨none, none⟩ (by decide),
    empty_file_find_delete_error sampleDb " \n " (.qfield []) ⟨none, none⟩ (by decide)⟩

/-- Sample record `{name:"sam", age:1}` (same name as `recSamB`). -/
def recSamA : Json := .obj [("name", .str "sam"), ("age", .num 1)]

/-- Sample record `{name:"sam", age:2}` (same name as `recSamA`). -/
def recSamB : Json := .obj [("name", .str "sam"), ("age", .num 2)]

/-- Sample record `{name:"zed", age:30}` (same age as `recAbe`). -/
def recZed : Json := .obj [("name", .str "zed"), ("age", .num 30)]

/-- Sample record `{name:"abe", age:30}` (same age as `recZed`). -/
def recAbe : Json := .obj [("name", .str "abe"), ("age", .num 30)]

/-- C1 counterexample: the numeric comparator `(aValue < bValue ? -1 : 1) *
order` returns the direction, never `0`, on equal values, with two observable
failures of the claim. Reordering: `recAnn` and `recBob` have equal values on
the only configured key, the unsorted result order is `[recAnn, recBob]`, yet
under the descending sort `{age: -1}` the pair compares `-1`, is detected as
a strictly-descending run and reversed to `[recBob, recAnn]` (exactly what
the Node/V8 runtime does). No fall-through: under `{age: 1, name: 1}` the
equal-aged `recZed`/`recAbe` compare `+1` on `age`, so the `name` key is
never consulted — the result keeps `[recZed, recAbe]` although `"abe"`
sorts strictly before `"zed"` and fall-through would have swapped them. -/
theorem sort_stability_counterexample :
    recAnn.getField "age" = recBob.getField "age" ∧
    sampleDb.find [⟨true, recAnn⟩, ⟨true, recBob⟩] (.qfield []) ⟨none, none⟩ =
      [recAnn, recBob] ∧
    sampleDb.find [⟨true, recAnn⟩, ⟨true, recBob⟩] (.qfield [])
      ⟨some [("age", -1)], none⟩ = [recBob, recAnn] ∧
    recAnn ≠ recBob ∧
    recZed.getField "age" = recAbe.getField "age" ∧
    strCompare "abe" "zed" < 0 ∧
    sampleDb.find [⟨true, recZed⟩, ⟨true, recAbe⟩] (.qfield [])
      ⟨some [("age", 1), ("name", 1)], none⟩ = [recZed, recAbe] := by decide

/-- C1 amended: a per-key comparison of `0` falls through to the next key,
but equal numeric key values compare to the key's direction (`order`, ±1),
never `0`, so ties on a numeric key never fall through; and the sort leaves
any result whose consecutive comparator values are all `≥ 0` unchanged (V8's
run detection takes it as one ascending run), so records tying with
comparator `0` on every key retain their pre-sort order inside such a run —
while a descending-key tie forms a strictly-descending run and is reversed
(see `sort_stability_counterexample`). -/
theorem sort_tie_behavior (db : Database) (rows : List Row) (q : Query)
    (keys : List (String × Int)) (k : String) (o : Int) (a b : Json) (n : Int) :
    (keyCompare a b k o = 0 →
      rowCompare ((k, o) :: keys) a b = rowCompare keys a b) ∧
    (a.getField k = some (.num n) → b.getField k = some (.num n) →
      keyCompare a b k o = o) ∧
    (ascendingBy (fun x y => rowCompare keys x.2 y.2)
        (db.findUnshaped rows q) = true →
      db.findSortedRefs rows q keys = db.findUnshaped rows q) := by
  refine ⟨?_, ?_, ?_⟩
  · intro hk0
    simp [rowCompare, hk0]
  · intro ha hb
    simp [keyCompare, ha, hb]
  · intro hasc
    exact sortJs_of_ascendingBy _ _ hasc

/-- Witness for `sort_tie_behavior`: a `0` comparison on equal `name` strings
falls through past that key; equal ages under the descending direction
compare to `-1`; and two records tying on `name` stand in an ascending run
and keep their pre-sort order under the sort on `name`. -/
theorem sort_tie_behavior_witness :
    rowCompare [("name", 1), ("age", 1)] recSamA recSamB =
      rowCompare [("age", 1)] recSamA recSamB ∧
    keyCompare recAnn recBob "age" (-1) = -1 ∧
    sampleDb.findSortedRefs [⟨true, recSamA⟩, ⟨true, recSamB⟩] (.qfield [])
        [("name", 1)] =
      sampleDb.findUnshaped [⟨true, recSamA⟩, ⟨true, recSamB⟩] (.qfield []) :=
  ⟨(sort_tie_behavior sampleDb [] (.qfield []) [("age", 1)] "name" 1
      recSamA recSamB 0).1 (by decide),
    (sort_tie_behavior sampleDb [] (.qfield []) [] "age" (-1)
      recAnn recBob 30).2.1 (by decide) (by decide),
    (sort_tie_behavior sampleDb [⟨true, recSamA⟩, ⟨true, recSamB⟩]
      (.qfield []) [("name", 1)] "x" 1 Json.null Json.null 0).2.2 (by decide)⟩

/-- C4: if `delete q` turned row `i` — holding record `r`, previously live —
into a tombstone, then no subsequent `find` over the rewritten rows returns
`r`, for any query and any sort option, even though row `i` still exists
physically in the rewritten file. -/
theorem delete_tombstone_exclusion (db : Database) (rows : List Row)
    (q q' : Query) (keys : Option (List (String × Int))) (i : Nat) (row : Row)
    (hrow : rows[i]? = some row) (hlive : row.«exists» = true)
    (hdead : (db.deleteRows rows q)[i]? = some ⟨false, row.data⟩) :
    row.data ∉ db.find (db.deleteRows rows q) q' ⟨keys, none⟩ := by
  intro hmem
  obtain ⟨j, hj⟩ :=
    (mem_find_no_projection db (db.deleteRows rows q) q' keys row.data).mp hmem
  have hjrec : (j, row.data) ∈ liveRecords (db.deleteRows rows q) :=
    find_subset db _ q' _ hj
  obtain ⟨rowj, hrowj, hlivej, hdataj⟩ :=
    (mem_liveRecords _ j row.data).mp hjrec
  rw [deleteRows_getElem? db rows q j] at hrowj
  cases hrowsj : rows[j]? with
  | none => rw [hrowsj] at hrowj; exact absurd hrowj (by simp)
  | some rowsj =>
    rw [hrowsj] at hrowj
    simp only [Option.map_some, Option.map_some', Option.some.injEq] at hrowj
    have hx := congrArg Row.«exists» hrowj
    rw [hlivej] at hx
    simp only [Bool.and_eq_true] at hx
    have hexj : rowsj.«exists» = true := hx.1
    have hcj : (db._find (liveRecords rows) q).contains (j, rowsj.data) = false := by
      simpa using hx.2
    have hdataj2 : rowsj.data = row.data :=
      (congrArg Row.data hrowj).trans hdataj
    have hci : (db._find (liveRecords rows) q).contains (i, row.data) = true := by
      rw [deleteRows_getElem? db rows q i, hrow] at hdead
      simp only [Option.map_some, Option.map_some', Option.some.injEq] at hdead
      have hx := congrArg Row.«exists» hdead
      rw [hlive] at hx
      simpa using hx
    have hi_mem : (i, row.data) ∈ liveRecords rows :=
      (mem_liveRecords rows i row.data).mpr ⟨row, hrow, hlive, rfl⟩
    have hj_mem : (j, row.data) ∈ liveRecords rows :=
      (mem_liveRecords rows j row.data).mpr ⟨rowsj, hrowsj, hexj, hdataj2⟩
    have hj_in : (j, row.data) ∈ db._find (liveRecords rows) q :=
      (find_congr db (liveRecords rows) i j row.data hi_mem hj_mem q).mp
        (contains_iff_mem.mp hci)
    have hcj_true : (db._find (liveRecords rows) q).contains (j, rowsj.data) = true := by
      rw [hdataj2]
      exact contains_iff_mem.mpr hj_in
    rw [hcj_true] at hcj
    exact absurd hcj (by simp)

/-- Witness for `delete_tombstone_exclusion` at the specification's scenario:
deleting `{name:{$eq:"ann"}}` tombstones Ann's row, and a subsequent
match-all `find` no longer returns her record. -/
theorem delete_tombstone_exclusion_witness :
    recAnn ∉ sampleDb.find
      (sampleDb.deleteRows [⟨true, recAnn⟩, ⟨true, recBob⟩]
        (.qfield [("name", .ceq (.str "ann"))]))
      (.qfield []) ⟨none, none⟩ :=
  delete_tombstone_exclusion sampleDb [⟨true, recAnn⟩, ⟨true, recBob⟩]
    (.qfield [("name", .ceq (.str "ann"))]) (.qfield []) none 0 ⟨true, recAnn⟩
    (by decide) (by decide) (by decide)
